import Mathlib

/-!
Verification of the BLAS binding library against its design specification.

The repository declares foreign bindings (src/vector_f32.rs, src/matrix_f32.rs,
src/matrix_c32.rs, src/givens.rs, src/constants.rs) to a vendor BLAS; the only
executable repository code is the enumeration types in src/constants.rs.  The
kernels themselves are therefore modelled from the specification (spec.md and
the doc comments attached to the bindings), with exact rational arithmetic in
place of IEEE f32 except where NaN behaviour is the point of a claim, in which
case an explicit NaN-propagating scalar type is used.
-/

namespace Blas

/-! ## Enumerations, from src/constants.rs (actual repository code) -/

/-- Embeds CblasOrder from src/constants.rs lines 8-11. -/
inductive CblasOrder where
  | RowMajor
  | ColMajor
deriving DecidableEq, Fintype, Repr

/-- Embeds CblasTranspose from src/constants.rs lines 14-19: the source
declares FOUR variants, including the ATLAS extension AtlasConj = 114. -/
inductive CblasTranspose where
  | NoTrans
  | Trans
  | ConjTrans
  | AtlasConj
deriving DecidableEq, Fintype, Repr

/-- Embeds the repr(i32) discriminants of CblasTranspose from src/constants.rs. -/
def CblasTranspose.code : CblasTranspose → Int
  | .NoTrans => 111
  | .Trans => 112
  | .ConjTrans => 113
  | .AtlasConj => 114

/-- Embeds CblasUpLow from src/constants.rs lines 22-25. -/
inductive CblasUpLow where
  | Upper
  | Lower
deriving DecidableEq, Fintype, Repr

/-- Embeds CblasDiag from src/constants.rs lines 28-31. -/
inductive CblasDiag where
  | NonUnit
  | Unit
deriving DecidableEq, Fintype, Repr

/-- Embeds CblasSide from src/constants.rs lines 34-37. -/
inductive CblasSide where
  | Left
  | Right
deriving DecidableEq, Fintype, Repr

/-- Modelled from the spec: error taxonomy of spec.md section 7 (the binding
source has no error channel of its own; the checked construction layer the
spec mandates is missing from src/). -/
inductive BlasError where
  | InvalidLength
  | InvalidStride
  | InvalidDimension
  | InvalidEnum
deriving DecidableEq, Repr

/-! ## NaN-propagating scalar model

Claims about beta = 0 short-circuits are about NaN poisoning, so the scalar
there is a rational extended with a NaN element; NaN propagates through
addition and multiplication (in particular 0 * NaN = NaN, as for IEEE f32). -/

/-- Rational-with-NaN model of an f32 value: fin q is a finite value, nan is
a NaN.  Rounding is not modelled; the claims using this type are exact. -/
inductive F32 where
  | fin (q : ℚ)
  | nan
deriving DecidableEq, Repr

/-- Addition on the NaN-extended scalars: NaN propagates. -/
def F32.add : F32 → F32 → F32
  | .fin a, .fin b => .fin (a + b)
  | _, _ => .nan

/-- Multiplication on the NaN-extended scalars: NaN propagates, including
0 * NaN = NaN as in IEEE arithmetic. -/
def F32.mul : F32 → F32 → F32
  | .fin a, .fin b => .fin (a * b)
  | _, _ => .nan

/-! ## Level 1 kernels (vector-vector), modelled from the spec

Bindings in src/vector_f32.rs.  Vectors with unit stride are lists; the
element count n is the list length. -/

/-- Modelled from the spec: lin_comb_catlas (catlas_saxpby, src/vector_f32.rs
lines 25-34), y_i := alpha * x_i + beta * y_i in place on y, with the
beta = 0 case an explicit short-circuit that never reads y (spec.md
section 4.4 and section 8), over the NaN-extended scalars. -/
def lin_comb_catlas (alpha : F32) (x : List F32) (beta : F32) (y : List F32) :
    List F32 :=
  if beta = F32.fin 0 then
    x.map (fun a => F32.mul alpha a)
  else
    List.zipWith (fun a b => F32.add (F32.mul alpha a) (F32.mul beta b)) x y

/-- Modelled from the spec: dot (cblas_sdot, src/vector_f32.rs lines 71-78),
the sum of x_i * y_i accumulated strictly left-to-right from index 0
(spec.md section 4.3), in exact rational arithmetic. -/
def dot (x y : List ℚ) : ℚ :=
  (List.zip x y).foldl (fun s p => s + p.1 * p.2) 0

/-- Modelled from the spec: scale_plus (cblas_saxpy, src/vector_f32.rs lines
170-178), y_i := alpha * x_i + y_i in place on y. -/
def scale_plus (alpha : ℚ) (x y : List ℚ) : List ℚ :=
  List.zipWith (fun a b => alpha * a + b) x y

/-- Modelled from the spec: scale (cblas_sscal, src/vector_f32.rs lines
195-196), x_i := alpha * x_i in place. -/
def scale (alpha : ℚ) (x : List ℚ) : List ℚ :=
  x.map (fun a => alpha * a)

/-! ## Strided views, modelled from the spec (sections 3, 4.2 and 7)

Memory is a total map from integer offsets to rationals; logical element i of
a strided vector view lives at offset i * inc.  The reference semantics of the
spec assume a positive stride; stride zero must be rejected. -/

/-- Modelled from the spec: the list of logical elements of a strided vector
view of extent n over memory mem with stride inc (spec.md section 3);
extents n <= 0 denote the empty view. -/
def gather (n : Int) (mem : Int → ℚ) (inc : Int) : List ℚ :=
  (List.range n.toNat).map (fun i => mem (i * inc))

/-- Pointwise store of value v at integer offset addr. -/
def write1 (m : Int → ℚ) (addr : Int) (v : ℚ) : Int → ℚ :=
  fun a => if a = addr then v else m a

/-- Modelled from the spec: the checked strided form of lin_comb_catlas
(src/vector_f32.rs lines 25-34) with the validation layer of spec.md
sections 4.2 and 7: a zero stride is rejected with InvalidStride before any
memory access, so the returned memory is the unmodified input.  On the ok
path the sweep stores alpha * x_i + beta * y_i at each y offset in order. -/
def lin_comb_strided (n : Int) (alpha : ℚ) (x : Int → ℚ) (incx : Int)
    (beta : ℚ) (y : Int → ℚ) (incy : Int) :
    Except BlasError Unit × (Int → ℚ) :=
  if incx = 0 ∨ incy = 0 then
    (Except.error BlasError.InvalidStride, y)
  else
    (Except.ok (), (List.range n.toNat).foldl
      (fun m i => write1 m (i * incy) (alpha * x (i * incx) + beta * m (i * incy))) y)

/-- Modelled from the spec: strided dot (cblas_sdot, src/vector_f32.rs lines
71-78); extents n <= 0 return the empty-sum value 0 with no element access
(spec.md section 7). -/
def dot_strided (n : Int) (x : Int → ℚ) (incx : Int) (y : Int → ℚ)
    (incy : Int) : ℚ :=
  if n ≤ 0 then 0 else dot (gather n x incx) (gather n y incy)

/-- Modelled from the spec: norm1 (cblas_sasum, src/vector_f32.rs lines
152-153), the sum of absolute values; n <= 0 returns 0. -/
def norm1 (n : Int) (x : Int → ℚ) (incx : Int) : ℚ :=
  if n ≤ 0 then 0 else ((gather n x incx).map (fun a => |a|)).sum

/-- Modelled from the spec: norm2 (cblas_snrm2, src/vector_f32.rs lines
230-231), the Euclidean norm; in exact real arithmetic the overflow-safe
scaled computation the spec prescribes equals the square root of the sum of
squares; n <= 0 returns 0. -/
noncomputable def norm2 (n : Int) (x : Int → ℚ) (incx : Int) : ℝ :=
  if n ≤ 0 then 0 else
    Real.sqrt (((gather n x incx).map (fun a => ((a : ℝ)) ^ 2)).sum)

/-- Running tail of the arg-max scan: i is the index of the next element,
best the best index so far, bv its absolute value; a strictly greater
magnitude is required to displace the incumbent, so ties resolve to the
first index (spec.md section 4.3). -/
def argmax_aux : List ℚ → ℕ → ℕ → ℚ → ℕ
  | [], _, best, _ => best
  | a :: t, i, best, bv =>
    if |a| > bv then argmax_aux t (i + 1) i |a| else argmax_aux t (i + 1) best bv

/-- Modelled from the spec: argmax_mod (cblas_isamax, src/vector_f32.rs lines
266-267), the first index of greatest absolute value; n <= 0 returns 0. -/
def argmax_mod (n : Int) (x : Int → ℚ) (incx : Int) : ℕ :=
  if n ≤ 0 then 0 else
    match gather n x incx with
    | [] => 0
    | a :: t => argmax_aux t 1 0 |a|

/-! ## Matrix-vector multiply over the NaN-extended scalars (for the
beta = 0 short-circuit claim) -/

/-- Left-to-right sum of NaN-extended scalars starting from 0. -/
def f32Sum (l : List F32) : F32 :=
  l.foldl F32.add (F32.fin 0)

/-- Element (i, j) of a matrix stored in memory a with leading dimension lda
in the given major order (spec.md section 3). -/
def matElem (major : CblasOrder) (lda : ℕ) (a : ℕ → F32) (i j : ℕ) : F32 :=
  match major with
  | .RowMajor => a (i * lda + j)
  | .ColMajor => a (j * lda + i)

/-- Element (i, j) of op(A) under the transpose mode; conjugation is the
identity on real scalars, so ConjTrans acts as Trans and AtlasConj as
NoTrans. -/
def opElem (major : CblasOrder) (trans : CblasTranspose) (lda : ℕ)
    (a : ℕ → F32) (i j : ℕ) : F32 :=
  match trans with
  | .NoTrans => matElem major lda a i j
  | .AtlasConj => matElem major lda a i j
  | .Trans => matElem major lda a j i
  | .ConjTrans => matElem major lda a j i

/-- Number of rows of op(A) for an m-by-n matrix A: the output length. -/
def opRows (trans : CblasTranspose) (m n : ℕ) : ℕ :=
  match trans with
  | .NoTrans => m
  | .AtlasConj => m
  | _ => n

/-- Number of columns of op(A) for an m-by-n matrix A: the input length. -/
def opCols (trans : CblasTranspose) (m n : ℕ) : ℕ :=
  match trans with
  | .NoTrans => n
  | .AtlasConj => n
  | _ => m

/-- Modelled from the spec: mat_vec_mul (cblas_sgemv, src/matrix_f32.rs lines
115-129), y := alpha * op(A) * x + beta * y over the NaN-extended scalars,
with the beta = 0 case an explicit short-circuit that never reads y
(spec.md section 4.4).  The result is the list of output elements. -/
def mat_vec_mul (major : CblasOrder) (trans : CblasTranspose) (m n : ℕ)
    (alpha : F32) (a : ℕ → F32) (lda : ℕ) (x : ℕ → F32) (beta : F32)
    (y : ℕ → F32) : List F32 :=
  (List.range (opRows trans m n)).map (fun i =>
    let s := F32.mul alpha (f32Sum ((List.range (opCols trans m n)).map
      (fun j => F32.mul (opElem major trans lda a i j) (x j))))
    if beta = F32.fin 0 then s else F32.add s (F32.mul beta (y i)))

/-! ## Complex single-precision scalars (exact model) -/

/-- Exact model of a complex single-precision value as a pair of rationals
(real part, imaginary part). -/
abbrev C32 := ℚ × ℚ

/-- Complex addition. -/
def cadd (z w : C32) : C32 := (z.1 + w.1, z.2 + w.2)

/-- Complex multiplication with the standard four-multiply formula
(spec.md section 4.1). -/
def cmul (z w : C32) : C32 := (z.1 * w.1 - z.2 * w.2, z.1 * w.2 + z.2 * w.1)

/-- Complex conjugate: negates the imaginary part only. -/
def conj32 (z : C32) : C32 := (z.1, -z.2)

/-- Scaling of a complex value by a real scalar. -/
def rsmul (r : ℚ) (z : C32) : C32 := (r * z.1, r * z.2)

/-! ## Rank-1 and rank-2 updates over a declared triangle

Full-storage matrices are total maps from (row, column) pairs; each kernel is
a sweep over the list of index pairs of the declared triangle, performing one
store per pair, so which offsets are written is part of the operational
model rather than an assumption. -/

/-- Pointwise store of value v at matrix position p. -/
def write2 {α : Type} (M : ℕ × ℕ → α) (p : ℕ × ℕ) (v : α) : ℕ × ℕ → α :=
  fun q => if q = p then v else M q

/-- Pointwise store of value v at linear offset k (packed storage). -/
def writeP {α : Type} (m : ℕ → α) (k : ℕ) (v : α) : ℕ → α :=
  fun a => if a = k then v else m a

/-- Membership of position (i, j) in the declared triangle, diagonal
included. -/
def inTri (tri : CblasUpLow) (i j : ℕ) : Bool :=
  match tri with
  | .Upper => decide (i ≤ j)
  | .Lower => decide (j ≤ i)

/-- Index pairs of the declared triangle of an n-by-n matrix, in row-major
sweep order. -/
def triPairs (tri : CblasUpLow) (n : ℕ) : List (ℕ × ℕ) :=
  (List.range n).flatMap (fun i =>
    ((List.range n).filter (fun j => inTri tri i j)).map (fun j => (i, j)))

/-- Linear offset of triangle element (i, j) in packed column-by-column
storage of the declared triangle (spec.md section 3, Packed). -/
def packedIdx (tri : CblasUpLow) (n i j : ℕ) : ℕ :=
  match tri with
  | .Upper => i + j * (j + 1) / 2
  | .Lower => (i - j) + j * n - j * (j - 1) / 2

/-- Modelled from the spec: sym_rank_1_update (cblas_ssyr, src/matrix_f32.rs
lines 393-403), A := A + alpha * x * transpose(x) stored into the declared
triangle only (spec.md section 4.4). -/
def sym_rank_1_update (tri : CblasUpLow) (n : ℕ) (alpha : ℚ) (x : ℕ → ℚ)
    (A : ℕ × ℕ → ℚ) : ℕ × ℕ → ℚ :=
  (triPairs tri n).foldl
    (fun M p => write2 M p (M p + alpha * x p.1 * x p.2)) A

/-- Modelled from the spec: sym_rank_2_update (cblas_ssyr2, src/matrix_f32.rs
lines 424-433), A := A + alpha * x * transpose(y) + alpha * y * transpose(x)
stored into the declared triangle only. -/
def sym_rank_2_update (tri : CblasUpLow) (n : ℕ) (alpha : ℚ) (x y : ℕ → ℚ)
    (A : ℕ × ℕ → ℚ) : ℕ × ℕ → ℚ :=
  (triPairs tri n).foldl
    (fun M p => write2 M p (M p + alpha * x p.1 * y p.2 + alpha * y p.1 * x p.2)) A

/-- Modelled from the spec: herm_rank1_update (cblas_cher, src/matrix_c32.rs
lines 327-358), A := A + alpha * x * conjugate-transpose(x) with real alpha,
stored into the declared triangle only; the imaginary part of a diagonal
element is forced to zero, the diagonal of a Hermitian matrix being real
(spec.md section 4.4). -/
def herm_rank1_update (tri : CblasUpLow) (n : ℕ) (alpha : ℚ) (x : ℕ → C32)
    (A : ℕ × ℕ → C32) : ℕ × ℕ → C32 :=
  (triPairs tri n).foldl
    (fun M p =>
      let v := cadd (M p) (rsmul alpha (cmul (x p.1) (conj32 (x p.2))))
      write2 M p (if p.1 = p.2 then (v.1, 0) else v)) A

/-- Modelled from the spec: herm_rank2_update (cblas_cher2, src/matrix_c32.rs
lines 359-392), A := A + alpha * x * conjugate-transpose(y) +
conjugate(alpha) * y * conjugate-transpose(x), stored into the declared
triangle only, with the diagonal forced real. -/
def herm_rank2_update (tri : CblasUpLow) (n : ℕ) (alpha : C32) (x y : ℕ → C32)
    (A : ℕ × ℕ → C32) : ℕ × ℕ → C32 :=
  (triPairs tri n).foldl
    (fun M p =>
      let v := cadd (M p) (cadd (cmul alpha (cmul (x p.1) (conj32 (y p.2))))
        (cmul (conj32 alpha) (cmul (y p.1) (conj32 (x p.2)))))
      write2 M p (if p.1 = p.2 then (v.1, 0) else v)) A

/-- Modelled from the spec: pack_sym_rank1_update (cblas_sspr,
src/matrix_f32.rs lines 258-288), the packed form of sym_rank_1_update:
the same triangle sweep, storing at the packed offset of each triangle
element. -/
def pack_sym_rank1_update (tri : CblasUpLow) (n : ℕ) (alpha : ℚ) (x : ℕ → ℚ)
    (ap : ℕ → ℚ) : ℕ → ℚ :=
  (triPairs tri n).foldl
    (fun m p => writeP m (packedIdx tri n p.1 p.2)
      (m (packedIdx tri n p.1 p.2) + alpha * x p.1 * x p.2)) ap

/-- Modelled from the spec: pack_sym_rank_2_update (cblas_sspr2,
src/matrix_f32.rs lines 289-323), the packed form of sym_rank_2_update. -/
def pack_sym_rank_2_update (tri : CblasUpLow) (n : ℕ) (alpha : ℚ)
    (x y : ℕ → ℚ) (ap : ℕ → ℚ) : ℕ → ℚ :=
  (triPairs tri n).foldl
    (fun m p => writeP m (packedIdx tri n p.1 p.2)
      (m (packedIdx tri n p.1 p.2) + alpha * x p.1 * y p.2 + alpha * y p.1 * x p.2)) ap

/-- Modelled from the spec: pack_hermitian_rank1_update (cblas_chpr,
src/matrix_c32.rs lines 496-524), the packed form of herm_rank1_update. -/
def pack_hermitian_rank1_update (tri : CblasUpLow) (n : ℕ) (alpha : ℚ)
    (x : ℕ → C32) (ap : ℕ → C32) : ℕ → C32 :=
  (triPairs tri n).foldl
    (fun m p =>
      let k := packedIdx tri n p.1 p.2
      let v := cadd (m k) (rsmul alpha (cmul (x p.1) (conj32 (x p.2))))
      writeP m k (if p.1 = p.2 then (v.1, 0) else v)) ap

/-- Modelled from the spec: pack_hermitian_rank2_update (cblas_chpr2,
src/matrix_c32.rs lines 525-564), the packed form of herm_rank2_update. -/
def pack_hermitian_rank2_update (tri : CblasUpLow) (n : ℕ) (alpha : C32)
    (x y : ℕ → C32) (ap : ℕ → C32) : ℕ → C32 :=
  (triPairs tri n).foldl
    (fun m p =>
      let k := packedIdx tri n p.1 p.2
      let v := cadd (m k) (cadd (cmul alpha (cmul (x p.1) (conj32 (y p.2))))
        (cmul (conj32 alpha) (cmul (y p.1) (conj32 (x p.2)))))
      writeP m k (if p.1 = p.2 then (v.1, 0) else v)) ap

/-- Membership of the strict opposite triangle: positions there are exactly
the ones a conformant update must leave untouched. -/
def strictOpp (tri : CblasUpLow) (i j : ℕ) : Prop :=
  match tri with
  | .Upper => j < i
  | .Lower => i < j

instance (tri : CblasUpLow) (i j : ℕ) : Decidable (strictOpp tri i j) := by
  cases tri <;> simp [strictOpp] <;> infer_instance

/-! ## Triangular multiply and solve (trmv / trsv), modelled from the spec

The effective matrix of a triangular kernel call is determined by the
triangle, the transpose mode (conjugation is the identity on real scalars)
and the unit-diagonal flag; multiply is a dense sweep against that matrix and
solve is the inverting forward or backward substitution (spec.md
section 4.4). -/

/-- Whether the transpose mode flips indices; conjugation alone (AtlasConj)
does not. -/
def transposed : CblasTranspose → Bool
  | .NoTrans => false
  | .AtlasConj => false
  | .Trans => true
  | .ConjTrans => true

/-- Effective matrix of a triangular kernel call: entries outside the
declared triangle are structural zeros, the diagonal is 1 in unit-diagonal
mode (never read, here never looked up), and the transpose mode is applied
logically by index swap. -/
def effTri (tri : CblasUpLow) (trans : CblasTranspose) (diag : CblasDiag)
    (A : ℕ → ℕ → ℚ) (i j : ℕ) : ℚ :=
  let base : ℕ → ℕ → ℚ := fun i j =>
    if i = j then (match diag with | .Unit => 1 | .NonUnit => A i i)
    else if inTri tri i j then A i j else 0
  if transposed trans then base j i else base i j

/-- Whether the effective matrix of the call is lower triangular (forward
substitution) rather than upper triangular (backward substitution). -/
def isEffLower (tri : CblasUpLow) (trans : CblasTranspose) : Bool :=
  match tri, transposed trans with
  | .Lower, false => true
  | .Upper, true => true
  | _, _ => false

/-- Forward substitution on a lower-triangular system M * x = b:
x_i = (b_i - sum of M i j * x_j over j < i) / M i i. -/
def fsAux (M : ℕ → ℕ → ℚ) (b : ℕ → ℚ) : ℕ → ℚ
  | i =>
    (b i - ∑ j in (Finset.range i).attach, M i j.1 * fsAux M b j.1) / M i i
decreasing_by exact Finset.mem_range.mp j.2

/-- Backward substitution on an upper-triangular system M * x = b of order
nn: x_i = (b_i - sum of M i j * x_j over i < j < nn) / M i i. -/
def bsAux (nn : ℕ) (M : ℕ → ℕ → ℚ) (b : ℕ → ℚ) : ℕ → ℚ
  | i =>
    (b i - ∑ j in (Finset.Ico (i + 1) nn).attach, M i j.1 * bsAux nn M b j.1) / M i i
termination_by i => nn - i
decreasing_by
  have hj := Finset.mem_Ico.mp j.2
  omega

/-- Modelled from the spec: tri_mat_vec_mul (cblas_strmv, src/matrix_f32.rs
lines 691-724), x := op(A) * x for triangular A, in place on x; elements at
indices at or beyond n are untouched. -/
def tri_mat_vec_mul (tri : CblasUpLow) (trans : CblasTranspose)
    (diag : CblasDiag) (n : ℕ) (A : ℕ → ℕ → ℚ) (x : ℕ → ℚ) : ℕ → ℚ :=
  fun i =>
    if i < n then ∑ j in Finset.range n, effTri tri trans diag A i j * x j
    else x i

/-- Modelled from the spec: tri_solve (cblas_strsv, src/matrix_f32.rs lines
759-770), solving op(A) * x = b for triangular A by forward or backward
substitution, in place on the right-hand side; singular pivots are not
checked (spec.md section 4.4). -/
def tri_solve (tri : CblasUpLow) (trans : CblasTranspose) (diag : CblasDiag)
    (n : ℕ) (A : ℕ → ℕ → ℚ) (b : ℕ → ℚ) : ℕ → ℚ :=
  fun i =>
    if i < n then
      if isEffLower tri trans then fsAux (effTri tri trans diag A) b i
      else bsAux n (effTri tri trans diag A) b i
    else b i

/-! ## Givens rotations, modelled from the binding doc comments
(src/givens.rs; spec.md does not cover the rotation family) -/

/-- Modelled from the spec: givens_gen_f32 (cblas_srotg, src/givens.rs lines
35-63), returning (r, c, s) with r = sqrt(a^2 + b^2) and the rotation
coefficients c, s that zero the second component; the degenerate all-zero
input returns the identity rotation. -/
noncomputable def givens_gen_f32 (a b : ℝ) : ℝ × ℝ × ℝ :=
  let r := Real.sqrt (a ^ 2 + b ^ 2)
  if r = 0 then (0, 1, 0) else (r, a / r, b / r)

/-- Modelled from the spec: givens_rot_f32 (cblas_srot, src/givens.rs lines
24-33), applying the rotation with matrix rows (c, s) and (-s, c) to every
element pair (x_i, y_i) in place; the two result lists are the new x and the
new y. -/
def givens_rot_f32 (c s : ℝ) (x y : List ℝ) : List ℝ × List ℝ :=
  ((x.zip y).map (fun p => c * p.1 + s * p.2),
   (x.zip y).map (fun p => c * p.2 - s * p.1))

/-! ## Helper lemmas -/

/-- Elements whose offset is never the target of a store in a write sweep
keep their initial value. -/
theorem foldl_write_frame {α β γ : Type} (step : (γ → α) → β → (γ → α))
    (tgt : β → γ) (hstep : ∀ M p q, q ≠ tgt p → step M p q = M q) :
    ∀ (ps : List β) (A : γ → α) (q : γ), (∀ p ∈ ps, q ≠ tgt p) →
      (ps.foldl step A) q = A q := by
  intro ps
  induction ps with
  | nil => intro A q _; rfl
  | cons p t ih =>
    intro A q hq
    rw [List.foldl_cons, ih _ _ (fun r hr => hq r (List.mem_cons_of_mem _ hr))]
    exact hstep _ _ _ (hq p (List.mem_cons_self _ _))

/-- Characterization of the triangle sweep index list. -/
theorem mem_triPairs {tri : CblasUpLow} {n : ℕ} {p : ℕ × ℕ} :
    p ∈ triPairs tri n ↔ p.1 < n ∧ p.2 < n ∧ inTri tri p.1 p.2 = true := by
  obtain ⟨i, j⟩ := p
  simp only [triPairs, List.mem_flatMap, List.mem_map, List.mem_filter,
    List.mem_range]
  constructor
  · rintro ⟨a, ha, b, ⟨hb, ht⟩, hab⟩
    obtain ⟨rfl, rfl⟩ := Prod.mk.injEq a b i j ▸ hab
    exact ⟨ha, hb, ht⟩
  · rintro ⟨hi, hj, ht⟩
    exact ⟨i, hi, j, ⟨hj, ht⟩, rfl⟩

/-- Positions of the strict opposite triangle are outside the declared
triangle. -/
theorem strictOpp_not_inTri {tri : CblasUpLow} {i j : ℕ}
    (h : strictOpp tri i j) : inTri tri i j = false := by
  cases tri <;> simp_all [strictOpp, inTri]

/-- Indexing into a zipWith at a position below both lengths. -/
theorem getD_zipWith {α β γ : Type} (f : α → β → γ) (dx : α) (dy : β) (d : γ) :
    ∀ (x : List α) (y : List β) (i : ℕ), i < x.length → i < y.length →
      (List.zipWith f x y).getD i d = f (x.getD i dx) (y.getD i dy) := by
  intro x
  induction x with
  | nil => intro y i hx _; simp at hx
  | cons a t ih =>
    intro y i hx hy
    cases y with
    | nil => simp at hy
    | cons b s =>
      cases i with
      | zero => simp
      | succ k =>
        simp only [List.zipWith_cons_cons, List.getD_cons_succ]
        exact ih s k (by simpa using hx) (by simpa using hy)

/-- Left fold of plus-product over a pair list, with running value made
explicit. -/
theorem foldl_add_mul (l : List (ℚ × ℚ)) :
    ∀ init : ℚ, l.foldl (fun s p => s + p.1 * p.2) init
      = init + (l.map (fun p => p.1 * p.2)).sum := by
  induction l with
  | nil => intro init; simp
  | cons a t ih =>
    intro init
    simp only [List.foldl_cons, List.map_cons, List.sum_cons, ih, add_assoc]

/-- Sum of pairwise products of equal-length lists as an indexed sum. -/
theorem zip_map_mul_sum :
    ∀ (x y : List ℚ), x.length = y.length →
      ((x.zip y).map (fun p => p.1 * p.2)).sum
        = ∑ i in Finset.range x.length, x.getD i 0 * y.getD i 0 := by
  intro x
  induction x with
  | nil => intro y _; simp
  | cons a t ih =>
    intro y hlen
    cases y with
    | nil => simp at hlen
    | cons b s =>
      have hlen2 : t.length = s.length := by simpa using hlen
      simp only [List.zip_cons_cons, List.map_cons, List.sum_cons,
        List.length_cons, Finset.sum_range_succ']
      rw [ih s hlen2]
      simp [add_comm]

/-- Effectively-lower calls have structural zeros above the diagonal. -/
theorem effTri_lower_zero (tri : CblasUpLow) (trans : CblasTranspose)
    (diag : CblasDiag) (A : ℕ → ℕ → ℚ) (hL : isEffLower tri trans = true) :
    ∀ i j, i < j → effTri tri trans diag A i j = 0 := by
  intro i j hij
  have hne : i ≠ j := Nat.ne_of_lt hij
  have hne2 : j ≠ i := Nat.ne_of_gt hij
  have hnle : ¬ (j ≤ i) := Nat.not_le.mpr hij
  cases tri <;> cases trans <;>
    simp_all [isEffLower, transposed, effTri, inTri]

/-- Effectively-upper calls have structural zeros below the diagonal. -/
theorem effTri_upper_zero (tri : CblasUpLow) (trans : CblasTranspose)
    (diag : CblasDiag) (A : ℕ → ℕ → ℚ) (hL : isEffLower tri trans = false) :
    ∀ i j, j < i → effTri tri trans diag A i j = 0 := by
  intro i j hij
  have hne : i ≠ j := Nat.ne_of_gt hij
  have hne2 : j ≠ i := Nat.ne_of_lt hij
  have hnle : ¬ (i ≤ j) := Nat.not_le.mpr hij
  cases tri <;> cases trans <;>
    simp_all [isEffLower, transposed, effTri, inTri]

/-- Nonzero matrix diagonal gives a nonzero effective diagonal (it is 1 in
unit-diagonal mode). -/
theorem effTri_diag_ne (tri : CblasUpLow) (trans : CblasTranspose)
    (diag : CblasDiag) (A : ℕ → ℕ → ℚ) (hA : ∀ k, A k k ≠ 0) :
    ∀ k, effTri tri trans diag A k k ≠ 0 := by
  intro k
  cases diag with
  | NonUnit => cases trans <;> simpa [effTri, transposed] using hA k
  | Unit => cases trans <;> simp [effTri, transposed]

/-- Forward substitution solves a lower-triangular system with nonzero
diagonal: row i of M times the computed solution reproduces b i. -/
theorem fs_correct (M : ℕ → ℕ → ℚ) (b : ℕ → ℚ) (n : ℕ)
    (hLow : ∀ i j, i < j → M i j = 0) (hD : ∀ i, M i i ≠ 0) :
    ∀ i, i < n → ∑ j in Finset.range n, M i j * fsAux M b j = b i := by
  intro i hi
  have hsplit :
      (∑ j in Finset.Ico 0 (i + 1), M i j * fsAux M b j)
        + ∑ j in Finset.Ico (i + 1) n, M i j * fsAux M b j
      = ∑ j in Finset.Ico 0 n, M i j * fsAux M b j :=
    Finset.sum_Ico_consecutive _ (Nat.zero_le _) hi
  have htail : ∑ j in Finset.Ico (i + 1) n, M i j * fsAux M b j = 0 :=
    Finset.sum_eq_zero (fun j hj => by
      have hj2 := (Finset.mem_Ico.mp hj).1
      rw [hLow i j (by omega), zero_mul])
  have hhead :
      ∑ j in Finset.range (i + 1), M i j * fsAux M b j
        = (∑ j in Finset.range i, M i j * fsAux M b j) + M i i * fsAux M b i :=
    Finset.sum_range_succ _ i
  have hatt : ∑ j in (Finset.range i).attach, M i j.1 * fsAux M b j.1
      = ∑ j in Finset.range i, M i j * fsAux M b j :=
    Finset.sum_attach (Finset.range i) (fun j => M i j * fsAux M b j)
  have hfs : fsAux M b i
      = (b i - ∑ j in Finset.range i, M i j * fsAux M b j) / M i i := by
    rw [fsAux, hatt]
  have hmul : M i i * fsAux M b i
      = b i - ∑ j in Finset.range i, M i j * fsAux M b j := by
    rw [hfs, mul_comm, div_mul_cancel₀ _ (hD i)]
  rw [Finset.range_eq_Ico, ← hsplit, htail, add_zero, ← Finset.range_eq_Ico,
    hhead, hmul]
  ring

/-- Backward substitution solves an upper-triangular system with nonzero
diagonal: row i of M times the computed solution reproduces b i. -/
theorem bs_correct (M : ℕ → ℕ → ℚ) (b : ℕ → ℚ) (n : ℕ)
    (hUp : ∀ i j, j < i → M i j = 0) (hD : ∀ i, M i i ≠ 0) :
    ∀ i, i < n → ∑ j in Finset.range n, M i j * bsAux n M b j = b i := by
  intro i hi
  have hsplit :
      (∑ j in Finset.Ico 0 i, M i j * bsAux n M b j)
        + ∑ j in Finset.Ico i n, M i j * bsAux n M b j
      = ∑ j in Finset.Ico 0 n, M i j * bsAux n M b j :=
    Finset.sum_Ico_consecutive _ (Nat.zero_le _) (le_of_lt hi)
  have hhead : ∑ j in Finset.Ico 0 i, M i j * bsAux n M b j = 0 :=
    Finset.sum_eq_zero (fun j hj => by
      have hj2 := (Finset.mem_Ico.mp hj).2
      rw [hUp i j hj2, zero_mul])
  have hmid :
      ∑ j in Finset.Ico i n, M i j * bsAux n M b j
        = M i i * bsAux n M b i + ∑ j in Finset.Ico (i + 1) n, M i j * bsAux n M b j :=
    Finset.sum_eq_sum_Ico_succ_bot hi _
  have hatt : ∑ j in (Finset.Ico (i + 1) n).attach, M i j.1 * bsAux n M b j.1
      = ∑ j in Finset.Ico (i + 1) n, M i j * bsAux n M b j :=
    Finset.sum_attach (Finset.Ico (i + 1) n) (fun j => M i j * bsAux n M b j)
  have hbs : bsAux n M b i
      = (b i - ∑ j in Finset.Ico (i + 1) n, M i j * bsAux n M b j) / M i i := by
    rw [bsAux, hatt]
  have hmul : M i i * bsAux n M b i
      = b i - ∑ j in Finset.Ico (i + 1) n, M i j * bsAux n M b j := by
    rw [hbs, mul_comm, div_mul_cancel₀ _ (hD i)]
  rw [Finset.range_eq_Ico, ← hsplit, hhead, zero_add, hmid, hmul]
  ring

/-! ## Claim theorems -/

/-- C1: for mat_vec_mul and for lin_comb with beta = 0, the resulting
contents of y are independent of the prior contents of y: two calls
identical except for the initial y (including a y poisoned with NaN)
produce the same output, the beta = 0 case being an explicit short-circuit
rather than a multiplication by zero. -/
theorem beta_zero_independent_of_y :
    (∀ (alpha : F32) (x y1 y2 : List F32),
      lin_comb_catlas alpha x (F32.fin 0) y1
        = lin_comb_catlas alpha x (F32.fin 0) y2) ∧
    (∀ (major : CblasOrder) (trans : CblasTranspose) (m n : ℕ) (alpha : F32)
      (a : ℕ → F32) (lda : ℕ) (x : ℕ → F32) (y1 y2 : ℕ → F32),
      mat_vec_mul major trans m n alpha a lda x (F32.fin 0) y1
        = mat_vec_mul major trans m n alpha a lda x (F32.fin 0) y2) := by
  constructor
  · intro alpha x y1 y2
    simp [lin_comb_catlas]
  · intro major trans m n alpha a lda x y1 y2
    simp [mat_vec_mul]

/-- C3: a call with vector stride zero fails with InvalidStride, detected
from the arguments before any memory access: the status is the
InvalidStride error and every offset of the output buffer keeps its
pre-call value. -/
theorem zero_stride_rejected_no_writes :
    ∀ (n : Int) (alpha : ℚ) (x : Int → ℚ) (incx : Int) (beta : ℚ)
      (y : Int → ℚ) (incy : Int) (addr : Int), incx = 0 ∨ incy = 0 →
      (lin_comb_strided n alpha x incx beta y incy).1
          = Except.error BlasError.InvalidStride ∧
        (lin_comb_strided n alpha x incx beta y incy).2 addr = y addr := by
  intro n alpha x incx beta y incy addr h
  rw [lin_comb_strided, if_pos h]
  exact ⟨rfl, rfl⟩

/-- Witness for C3 at a concrete zero-stride call. -/
theorem zero_stride_rejected_no_writes_witness :
    ((0 : Int) = 0 ∨ (1 : Int) = 0) ∧
      ((lin_comb_strided 3 2 (fun _ => 1) 0 5 (fun _ => 9) 1).1
          = Except.error BlasError.InvalidStride ∧
        (lin_comb_strided 3 2 (fun _ => 1) 0 5 (fun _ => 9) 1).2 7 = 9) :=
  ⟨Or.inl rfl,
    zero_stride_rejected_no_writes 3 2 (fun _ => 1) 0 5 (fun _ => 9) 1 7
      (Or.inl rfl)⟩

/-- C4: dot accumulates the products strictly left-to-right starting from
index 0, and over exact arithmetic this equals the indexed sum of
x_i * y_i; in particular dot [1,2,3] [4,5,6] = 32. -/
theorem dot_left_to_right_sum :
    (∀ x y : List ℚ, x.length = y.length →
      dot x y = ∑ i in Finset.range x.length, x.getD i 0 * y.getD i 0) ∧
    dot [1, 2, 3] [4, 5, 6] = 32 := by
  constructor
  · intro x y hlen
    rw [dot, foldl_add_mul, zero_add, zip_map_mul_sum x y hlen]
  · norm_num [dot]

/-- Witness for C4 at a concrete pair of equal-length vectors. -/
theorem dot_left_to_right_sum_witness :
    ([(1 : ℚ), 2].length = [(3 : ℚ), 4].length) ∧
      dot [1, 2] [3, 4]
        = ∑ i in Finset.range [(1 : ℚ), 2].length,
            [(1 : ℚ), 2].getD i 0 * [(3 : ℚ), 4].getD i 0 :=
  ⟨rfl, dot_left_to_right_sum.1 [1, 2] [3, 4] rfl⟩

/-- C5: scale_plus (axpy) sets element i of y to alpha * x_i + y_i for every
index below the common length, and on the concrete scenario n = 3,
x = [1,2,3], y = [4,5,6], alpha = 2 it yields [6,9,12]. -/
theorem scale_plus_axpy :
    (∀ (alpha : ℚ) (x y : List ℚ) (i : ℕ), i < x.length → i < y.length →
      (scale_plus alpha x y).getD i 0 = alpha * x.getD i 0 + y.getD i 0) ∧
    scale_plus 2 [1, 2, 3] [4, 5, 6] = [6, 9, 12] := by
  constructor
  · intro alpha x y i hx hy
    exact getD_zipWith (fun a b => alpha * a + b) 0 0 0 x y i hx hy
  · norm_num [scale_plus]

/-- Witness for C5 at a concrete index. -/
theorem scale_plus_axpy_witness :
    ((0 : ℕ) < [(1 : ℚ)].length) ∧ ((0 : ℕ) < [(5 : ℚ)].length) ∧
      (scale_plus 2 [1] [5]).getD 0 0 = 2 * [(1 : ℚ)].getD 0 0 + [(5 : ℚ)].getD 0 0 :=
  ⟨by decide, by decide, scale_plus_axpy.1 2 [1] [5] 0 (by decide) (by decide)⟩

/-- C6: scale_plus with alpha = 0 leaves y unchanged, and scale with
alpha = 1 leaves x unchanged. -/
theorem scaled_add_zero_scale_one :
    (∀ x y : List ℚ, x.length = y.length → scale_plus 0 x y = y) ∧
    (∀ x : List ℚ, scale 1 x = x) := by
  constructor
  · intro x
    induction x with
    | nil =>
      intro y hlen
      simp [scale_plus]
      exact List.length_eq_zero.mp hlen.symm
    | cons a t ih =>
      intro y hlen
      cases y with
      | nil => simp at hlen
      | cons b s =>
        have hlen2 : t.length = s.length := by simpa using hlen
        simp [scale_plus] at ih ⊢
        exact ih s hlen2
  · intro x
    simp [scale]

/-- Witness for C6 at a concrete equal-length pair. -/
theorem scaled_add_zero_scale_one_witness :
    ([(1 : ℚ), 2].length = [(3 : ℚ), 4].length) ∧
      scale_plus 0 [1, 2] [3, 4] = [(3 : ℚ), 4] :=
  ⟨rfl, scaled_add_zero_scale_one.1 [1, 2] [3, 4] rfl⟩

/-- Positions of the strict opposite triangle never occur in the triangle
sweep index list. -/
theorem strictOpp_notin_triPairs {tri : CblasUpLow} {n i j : ℕ}
    (h : strictOpp tri i j) : ∀ p ∈ triPairs tri n, (i, j) ≠ p := by
  intro p hp heq
  have hm := mem_triPairs.mp hp
  rw [← heq] at hm
  have hfalse := strictOpp_not_inTri h
  simp [hfalse] at hm

/-- Frame property of any full-storage triangle write sweep: positions of
the strict opposite triangle keep their value. -/
theorem triSweep_frame {α : Type} (g : ((ℕ × ℕ) → α) → (ℕ × ℕ) → α)
    (tri : CblasUpLow) (n : ℕ) (A : ℕ × ℕ → α) {i j : ℕ}
    (h : strictOpp tri i j) :
    ((triPairs tri n).foldl (fun M p => write2 M p (g M p)) A) (i, j)
      = A (i, j) :=
  foldl_write_frame _ id
    (fun M p q hq => by
      have hq2 : q ≠ p := by simpa using hq
      simp [write2, hq2]) _ A (i, j)
    (strictOpp_notin_triPairs h)

/-- Frame property of any packed triangle write sweep: offsets that are not
the packed position of a declared-triangle element keep their value. -/
theorem packSweep_frame {α : Type} (g : (ℕ → α) → (ℕ × ℕ) → α)
    (tri : CblasUpLow) (n : ℕ) (ap : ℕ → α) {k : ℕ}
    (h : ∀ p ∈ triPairs tri n, k ≠ packedIdx tri n p.1 p.2) :
    ((triPairs tri n).foldl
      (fun m p => writeP m (packedIdx tri n p.1 p.2) (g m p)) ap) k = ap k :=
  foldl_write_frame _ (fun p => packedIdx tri n p.1 p.2)
    (fun M p q hq => by simp [writeP, hq]) _ ap k h

/-- C2: every rank-1 and rank-2 update on a symmetric or Hermitian matrix
(sym_rank_1_update, sym_rank_2_update, herm_rank1_update, herm_rank2_update
and their packed variants) writes only the declared triangle: every element
of the opposite strict triangle (for the packed forms, every offset that is
not the packed position of a declared-triangle element) holds its pre-call
value. -/
theorem rank_updates_only_declared_triangle :
    (∀ (tri : CblasUpLow) (n : ℕ) (alpha : ℚ) (x : ℕ → ℚ) (A : ℕ × ℕ → ℚ)
      (i j : ℕ), strictOpp tri i j →
      sym_rank_1_update tri n alpha x A (i, j) = A (i, j)) ∧
    (∀ (tri : CblasUpLow) (n : ℕ) (alpha : ℚ) (x y : ℕ → ℚ) (A : ℕ × ℕ → ℚ)
      (i j : ℕ), strictOpp tri i j →
      sym_rank_2_update tri n alpha x y A (i, j) = A (i, j)) ∧
    (∀ (tri : CblasUpLow) (n : ℕ) (alpha : ℚ) (x : ℕ → C32) (A : ℕ × ℕ → C32)
      (i j : ℕ), strictOpp tri i j →
      herm_rank1_update tri n alpha x A (i, j) = A (i, j)) ∧
    (∀ (tri : CblasUpLow) (n : ℕ) (alpha : C32) (x y : ℕ → C32)
      (A : ℕ × ℕ → C32) (i j : ℕ), strictOpp tri i j →
      herm_rank2_update tri n alpha x y A (i, j) = A (i, j)) ∧
    (∀ (tri : CblasUpLow) (n : ℕ) (alpha : ℚ) (x : ℕ → ℚ) (ap : ℕ → ℚ)
      (k : ℕ), (∀ p ∈ triPairs tri n, k ≠ packedIdx tri n p.1 p.2) →
      pack_sym_rank1_update tri n alpha x ap k = ap k) ∧
    (∀ (tri : CblasUpLow) (n : ℕ) (alpha : ℚ) (x y : ℕ → ℚ) (ap : ℕ → ℚ)
      (k : ℕ), (∀ p ∈ triPairs tri n, k ≠ packedIdx tri n p.1 p.2) →
      pack_sym_rank_2_update tri n alpha x y ap k = ap k) ∧
    (∀ (tri : CblasUpLow) (n : ℕ) (alpha : ℚ) (x : ℕ → C32) (ap : ℕ → C32)
      (k : ℕ), (∀ p ∈ triPairs tri n, k ≠ packedIdx tri n p.1 p.2) →
      pack_hermitian_rank1_update tri n alpha x ap k = ap k) ∧
    (∀ (tri : CblasUpLow) (n : ℕ) (alpha : C32) (x y : ℕ → C32)
      (ap : ℕ → C32) (k : ℕ),
      (∀ p ∈ triPairs tri n, k ≠ packedIdx tri n p.1 p.2) →
      pack_hermitian_rank2_update tri n alpha x y ap k = ap k) := by
  refine ⟨?_, ?_, ?_, ?_, ?_, ?_, ?_, ?_⟩
  · intro tri n alpha x A i j h
    exact triSweep_frame (fun M p => M p + alpha * x p.1 * x p.2) tri n A h
  · intro tri n alpha x y A i j h
    exact triSweep_frame
      (fun M p => M p + alpha * x p.1 * y p.2 + alpha * y p.1 * x p.2) tri n A h
  · intro tri n alpha x A i j h
    exact triSweep_frame
      (fun M p =>
        let v := cadd (M p) (rsmul alpha (cmul (x p.1) (conj32 (x p.2))))
        if p.1 = p.2 then (v.1, 0) else v) tri n A h
  · intro tri n alpha x y A i j h
    exact triSweep_frame
      (fun M p =>
        let v := cadd (M p) (cadd (cmul alpha (cmul (x p.1) (conj32 (y p.2))))
          (cmul (conj32 alpha) (cmul (y p.1) (conj32 (x p.2)))))
        if p.1 = p.2 then (v.1, 0) else v) tri n A h
  · intro tri n alpha x ap k h
    exact packSweep_frame
      (fun m p => m (packedIdx tri n p.1 p.2) + alpha * x p.1 * x p.2)
      tri n ap h
  · intro tri n alpha x y ap k h
    exact packSweep_frame
      (fun m p => m (packedIdx tri n p.1 p.2) + alpha * x p.1 * y p.2
        + alpha * y p.1 * x p.2) tri n ap h
  · intro tri n alpha x ap k h
    exact packSweep_frame
      (fun m p =>
        let v := cadd (m (packedIdx tri n p.1 p.2))
          (rsmul alpha (cmul (x p.1) (conj32 (x p.2))))
        if p.1 = p.2 then (v.1, 0) else v) tri n ap h
  · intro tri n alpha x y ap k h
    exact packSweep_frame
      (fun m p =>
        let v := cadd (m (packedIdx tri n p.1 p.2))
          (cadd (cmul alpha (cmul (x p.1) (conj32 (y p.2))))
            (cmul (conj32 alpha) (cmul (y p.1) (conj32 (x p.2)))))
        if p.1 = p.2 then (v.1, 0) else v) tri n ap h

/-- Witness for C2: each of the eight updates evaluated at a concrete
position outside the declared triangle. -/
theorem rank_updates_only_declared_triangle_witness :
    sym_rank_1_update CblasUpLow.Upper 2 1 (fun _ => 1) (fun _ => 0) (1, 0)
        = (0 : ℚ) ∧
    sym_rank_2_update CblasUpLow.Lower 2 1 (fun _ => 1) (fun _ => 1)
        (fun _ => 0) (0, 1) = (0 : ℚ) ∧
    herm_rank1_update CblasUpLow.Upper 2 1 (fun _ => (1, 0)) (fun _ => (0, 0))
        (1, 0) = ((0 : ℚ), (0 : ℚ)) ∧
    herm_rank2_update CblasUpLow.Lower 2 (1, 0) (fun _ => (1, 0))
        (fun _ => (1, 0)) (fun _ => (0, 0)) (0, 1) = ((0 : ℚ), (0 : ℚ)) ∧
    pack_sym_rank1_update CblasUpLow.Upper 2 1 (fun _ => 1) (fun _ => 0) 17
        = (0 : ℚ) ∧
    pack_sym_rank_2_update CblasUpLow.Lower 2 1 (fun _ => 1) (fun _ => 1)
        (fun _ => 0) 17 = (0 : ℚ) ∧
    pack_hermitian_rank1_update CblasUpLow.Upper 2 1 (fun _ => (1, 0))
        (fun _ => (0, 0)) 17 = ((0 : ℚ), (0 : ℚ)) ∧
    pack_hermitian_rank2_update CblasUpLow.Lower 2 (1, 0) (fun _ => (1, 0))
        (fun _ => (1, 0)) (fun _ => (0, 0)) 17 = ((0 : ℚ), (0 : ℚ)) := by
  obtain ⟨h1, h2, h3, h4, h5, h6, h7, h8⟩ := rank_updates_only_declared_triangle
  exact ⟨h1 _ 2 1 _ _ 1 0 (by decide), h2 _ 2 1 _ _ _ 0 1 (by decide),
    h3 _ 2 1 _ _ 1 0 (by decide), h4 _ 2 (1, 0) _ _ _ 0 1 (by decide),
    h5 _ 2 1 _ _ 17 (by decide), h6 _ 2 1 _ _ _ 17 (by decide),
    h7 _ 2 1 _ _ 17 (by decide), h8 _ 2 (1, 0) _ _ _ 17 (by decide)⟩

/-- C7: triangular solve followed by triangular multiply with the same
matrix, triangle, transpose mode and diagonal flag recovers the original
right-hand side (exactly, in the exact-arithmetic model), provided the
matrix diagonal is nonzero. -/
theorem tri_solve_roundtrip :
    ∀ (tri : CblasUpLow) (trans : CblasTranspose) (diag : CblasDiag) (n : ℕ)
      (A : ℕ → ℕ → ℚ) (b : ℕ → ℚ) (i : ℕ), (∀ k, A k k ≠ 0) → i < n →
      tri_mat_vec_mul tri trans diag n A (tri_solve tri trans diag n A b) i
        = b i := by
  intro tri trans diag n A b i hA hi
  have hdiag := effTri_diag_ne tri trans diag A hA
  simp only [tri_mat_vec_mul, if_pos hi]
  by_cases hL : isEffLower tri trans = true
  · have hsum : ∀ j ∈ Finset.range n,
        effTri tri trans diag A i j * tri_solve tri trans diag n A b j
          = effTri tri trans diag A i j * fsAux (effTri tri trans diag A) b j := by
      intro j hj
      have hjn := Finset.mem_range.mp hj
      simp only [tri_solve, if_pos hjn, if_pos hL]
    rw [Finset.sum_congr rfl hsum]
    exact fs_correct _ b n (effTri_lower_zero tri trans diag A hL) hdiag i hi
  · have hLf : isEffLower tri trans = false := by
      revert hL
      cases isEffLower tri trans <;> simp
    have hsum : ∀ j ∈ Finset.range n,
        effTri tri trans diag A i j * tri_solve tri trans diag n A b j
          = effTri tri trans diag A i j
            * bsAux n (effTri tri trans diag A) b j := by
      intro j hj
      have hjn := Finset.mem_range.mp hj
      simp only [tri_solve, if_pos hjn, hLf, Bool.false_eq_true, if_false]
    rw [Finset.sum_congr rfl hsum]
    exact bs_correct _ b n (effTri_upper_zero tri trans diag A hLf) hdiag i hi

/-- Witness for C7 at a concrete 1-by-1 lower-triangular system. -/
theorem tri_solve_roundtrip_witness :
    tri_mat_vec_mul CblasUpLow.Lower CblasTranspose.NoTrans CblasDiag.NonUnit
      1 (fun _ _ => 2)
      (tri_solve CblasUpLow.Lower CblasTranspose.NoTrans CblasDiag.NonUnit 1
        (fun _ _ => 2) (fun _ => 6)) 0 = 6 :=
  tri_solve_roundtrip CblasUpLow.Lower CblasTranspose.NoTrans CblasDiag.NonUnit
    1 (fun _ _ => 2) (fun _ => 6) 0 (fun _ => by norm_num) (by decide)

/-- C8 counterexample: the transpose-mode qualifier of src/constants.rs is
not a three-value enumeration; it has a fourth variant, AtlasConj. -/
theorem transpose_mode_not_three_values :
    ¬ (Fintype.card CblasTranspose = 3) := by decide

/-- C8 as amended: the transpose-mode qualifier is a closed enumeration of
exactly four values (none, transpose, conjugate-transpose and the ATLAS
conjugate-only extension), every value is one of the four, and the i32
discriminants 111-114 distinguish them; kernels receive the qualifier at
this closed type, so no out-of-range value is expressible at the binding
boundary. -/
theorem transpose_mode_closed_enum :
    Fintype.card CblasTranspose = 4 ∧
    (∀ t : CblasTranspose, t = CblasTranspose.NoTrans ∨
      t = CblasTranspose.Trans ∨ t = CblasTranspose.ConjTrans ∨
      t = CblasTranspose.AtlasConj) ∧
    Function.Injective CblasTranspose.code := by
  refine ⟨by decide, by decide, ?_⟩
  intro a b hab
  cases a <;> cases b <;> first
    | rfl
    | (exfalso; simp only [CblasTranspose.code] at hab; omega)

/-- C10: for extents n at most zero, every scalar-returning Level-1 kernel
returns its empty-reduction value (dot, norm1 and norm2 return 0 and
argmax_mod returns index 0), and the result does not depend on the vector
memory or strides at all. -/
theorem empty_extent_reductions :
    ∀ (n : Int) (x : Int → ℚ) (incx : Int) (y : Int → ℚ) (incy : Int)
      (x2 : Int → ℚ) (incx2 : Int) (y2 : Int → ℚ) (incy2 : Int), n ≤ 0 →
      dot_strided n x incx y incy = 0 ∧ norm1 n x incx = 0 ∧
      norm2 n x incx = 0 ∧ argmax_mod n x incx = 0 ∧
      dot_strided n x incx y incy = dot_strided n x2 incx2 y2 incy2 ∧
      norm1 n x incx = norm1 n x2 incx2 ∧
      norm2 n x incx = norm2 n x2 incx2 ∧
      argmax_mod n x incx = argmax_mod n x2 incx2 := by
  intro n x incx y incy x2 incx2 y2 incy2 hn
  simp [dot_strided, norm1, norm2, argmax_mod, hn]

/-- Witness for C10 at extent -1 with two unrelated memories and strides. -/
theorem empty_extent_reductions_witness :
    dot_strided (-1) (fun _ => 5) 2 (fun _ => 7) 3 = 0 ∧
    norm1 (-1) (fun _ => 5) 2 = 0 ∧
    norm2 (-1) (fun _ => 5) 2 = 0 ∧
    argmax_mod (-1) (fun _ => 5) 2 = 0 ∧
    dot_strided (-1) (fun _ => 5) 2 (fun _ => 7) 3
      = dot_strided (-1) (fun _ => 11) 4 (fun _ => 13) 5 ∧
    norm1 (-1) (fun _ => 5) 2 = norm1 (-1) (fun _ => 11) 4 ∧
    norm2 (-1) (fun _ => 5) 2 = norm2 (-1) (fun _ => 11) 4 ∧
    argmax_mod (-1) (fun _ => 5) 2 = argmax_mod (-1) (fun _ => 11) 4 :=
  empty_extent_reductions (-1) (fun _ => 5) 2 (fun _ => 7) 3 (fun _ => 11) 4
    (fun _ => 13) 5 (by decide)

/-- Mapping a curried function over a zip is a zipWith. -/
theorem zip_map_eq_zipWith {α β γ : Type} (f : α → β → γ) :
    ∀ (x : List α) (y : List β),
      (x.zip y).map (fun p => f p.1 p.2) = List.zipWith f x y := by
  intro x
  induction x with
  | nil => intro y; simp
  | cons a t ih =>
    intro y
    cases y with
    | nil => simp
    | cons b s => simp [ih]

/-- C9: for inputs not both zero, givens_gen_f32 returns r equal to the
Euclidean norm of (a, b) together with rotation coefficients c, s of unit
norm that map (a, b) to (r, 0); givens_rot_f32 applies the rotation with
rows (c, s) and (-s, c) to every element pair. -/
theorem givens_rotation_properties :
    (∀ a b : ℝ, ¬(a = 0 ∧ b = 0) →
      ((givens_gen_f32 a b).1 = Real.sqrt (a ^ 2 + b ^ 2) ∧
       (givens_gen_f32 a b).2.1 ^ 2 + (givens_gen_f32 a b).2.2 ^ 2 = 1 ∧
       (givens_gen_f32 a b).2.1 * a + (givens_gen_f32 a b).2.2 * b
         = (givens_gen_f32 a b).1 ∧
       -(givens_gen_f32 a b).2.2 * a + (givens_gen_f32 a b).2.1 * b = 0)) ∧
    (∀ (c s : ℝ) (x y : List ℝ) (i : ℕ), i < x.length → i < y.length →
      ((givens_rot_f32 c s x y).1.getD i 0
          = c * x.getD i 0 + s * y.getD i 0 ∧
       (givens_rot_f32 c s x y).2.getD i 0
          = -s * x.getD i 0 + c * y.getD i 0)) := by
  constructor
  · intro a b hab
    have hsum : a ^ 2 + b ^ 2 ≠ 0 := by
      intro h
      apply hab
      have ha2 : a ^ 2 = 0 := by nlinarith [sq_nonneg a, sq_nonneg b]
      have hb2 : b ^ 2 = 0 := by nlinarith [sq_nonneg a, sq_nonneg b]
      exact ⟨sq_eq_zero_iff.mp ha2, sq_eq_zero_iff.mp hb2⟩
    have hpos : 0 < a ^ 2 + b ^ 2 :=
      lt_of_le_of_ne (by positivity) (Ne.symm hsum)
    have hsq : Real.sqrt (a ^ 2 + b ^ 2) ^ 2 = a ^ 2 + b ^ 2 :=
      Real.sq_sqrt hpos.le
    have hrne : Real.sqrt (a ^ 2 + b ^ 2) ≠ 0 :=
      ne_of_gt (Real.sqrt_pos.mpr hpos)
    have heq : givens_gen_f32 a b
        = (Real.sqrt (a ^ 2 + b ^ 2), a / Real.sqrt (a ^ 2 + b ^ 2),
           b / Real.sqrt (a ^ 2 + b ^ 2)) := by
      simp [givens_gen_f32, if_neg hrne]
    rw [heq]
    refine ⟨rfl, ?_, ?_, ?_⟩
    · rw [div_pow, div_pow, div_add_div_same, hsq, div_self hsum]
    · rw [div_mul_eq_mul_div, div_mul_eq_mul_div, div_add_div_same]
      rw [show a * a + b * b = Real.sqrt (a ^ 2 + b ^ 2) ^ 2 by rw [hsq]; ring]
      rw [sq, mul_div_assoc, div_self hrne, mul_one]
    · field_simp
      ring
  · intro c s x y i hx hy
    constructor
    · have h1 := getD_zipWith (fun a b => c * a + s * b) (0 : ℝ) 0 0 x y i hx hy
      simpa [givens_rot_f32, zip_map_eq_zipWith (fun a b => c * a + s * b)]
        using h1
    · have h2 := getD_zipWith (fun a b => c * b - s * a) (0 : ℝ) 0 0 x y i hx hy
      have hz := zip_map_eq_zipWith (fun a b => c * b - s * a) x y
      simp only [givens_rot_f32]
      rw [show (fun p : ℝ × ℝ => c * p.2 - s * p.1)
          = (fun p : ℝ × ℝ => (fun a b => c * b - s * a) p.1 p.2) from rfl, hz, h2]
      ring

/-- Witness for C9 at the classic 3-4-5 input and a singleton rotation. -/
theorem givens_rotation_properties_witness :
    (¬((3 : ℝ) = 0 ∧ (4 : ℝ) = 0)) ∧
    ((givens_gen_f32 3 4).1 = Real.sqrt ((3 : ℝ) ^ 2 + (4 : ℝ) ^ 2) ∧
     (givens_gen_f32 3 4).2.1 ^ 2 + (givens_gen_f32 3 4).2.2 ^ 2 = 1 ∧
     (givens_gen_f32 3 4).2.1 * 3 + (givens_gen_f32 3 4).2.2 * 4
       = (givens_gen_f32 3 4).1 ∧
     -(givens_gen_f32 3 4).2.2 * 3 + (givens_gen_f32 3 4).2.1 * 4 = 0) ∧
    ((givens_rot_f32 1 0 [2] [5]).1.getD 0 0
        = 1 * [(2 : ℝ)].getD 0 0 + 0 * [(5 : ℝ)].getD 0 0 ∧
     (givens_rot_f32 1 0 [2] [5]).2.getD 0 0
        = -0 * [(2 : ℝ)].getD 0 0 + 1 * [(5 : ℝ)].getD 0 0) :=
  ⟨by norm_num, givens_rotation_properties.1 3 4 (by norm_num),
    givens_rotation_properties.2 1 0 [2] [5] 0 (by decide) (by decide)⟩

end Blas
